import Mathlib

/-
Verification of the core of the mfe (Moodle File Extractor) repository.

The Go program (src/mfe.go) reconstructs the file/folder layout of a Moodle
backup: it builds an id -> File mapping from files.xml (buildFileMapping),
annotates records with folder names taken from activities/folder_* bundles
(processActivitiesFolder), and copies content-addressed payloads to the
destination (copyFiles).  The definitions below are a shallow embedding of
those functions: XML decoding and the fs.FS store are modelled by passing the
decoded data (lists of records, bundle contents, a path -> Bool availability
predicate) explicitly, and the destination filesystem is modelled as the list
of file paths that exist.  Printed warning lines are collected in a list.
-/

namespace Mfe

/-- Characters matched by the Go regular expression character class
`[<>:"/\\|?*\x00-\x1F]` of `var forbidden` in mfe.go: the nine listed
punctuation characters together with the C0 control characters
(code points 0x00 to 0x1F). -/
def forbiddenChar (c : Char) : Bool :=
  c == '<' || c == '>' || c == ':' || c == '"' || c == '/' || c == '\\' ||
  c == '|' || c == '?' || c == '*' || decide (c.toNat < 32)

/-- Go `forbidden.ReplaceAllString(fileName, "")`: every maximal run of
forbidden characters (the regular expression is the character class followed
by `+`) is replaced by the empty string.  A run is removed by dropping its
first character and then the rest of the run with `dropWhile`. -/
def replaceForbiddenRuns : List Char → List Char
  | [] => []
  | c :: cs =>
    if forbiddenChar c then replaceForbiddenRuns (cs.dropWhile forbiddenChar)
    else c :: replaceForbiddenRuns cs
termination_by l => l.length
decreasing_by
  · exact Nat.lt_succ_of_le (List.dropWhile_sublist forbiddenChar).length_le
  · simp

/-- Go `sanitizeFileName` from mfe.go: strips the forbidden characters from a
name.  Go strings are UTF-8 byte strings and the regular expression engine
works on runes; since every forbidden character is a single ASCII byte, acting
on the character list is faithful. -/
def sanitizeFileName (fileName : String) : String :=
  ⟨replaceForbiddenRuns fileName.data⟩

/-- The `File` struct of mfe.go.  `Folder` carries the xml:"-" tag: it is
never populated by decoding, so decoded entries always have `Folder = ""`. -/
structure File where
  ID : String
  ContentHash : String
  Filename : String
  Folder : String
deriving DecidableEq, Repr

/-- The Go `map[string]File` is modelled as a function to `Option File`. -/
def FileMapping : Type := String → Option File

/-- Go map assignment `fileMapping[file.ID] = file`. -/
def insertFile (m : FileMapping) (file : File) : FileMapping :=
  fun k => if k = file.ID then some file else m k

/-- One iteration of the loop body of `buildFileMapping` in mfe.go: sanitize
the filename, skip the entry if the ID or ContentHash is empty or the
sanitized filename is exactly ".", otherwise insert it keyed by ID. -/
def buildStep (m : FileMapping) (file : File) : FileMapping :=
  let file := { file with Filename := sanitizeFileName file.Filename }
  if file.ID == "" || file.ContentHash == "" || file.Filename == "." then m
  else insertFile m file

/-- The pure core of `buildFileMapping` in mfe.go, applied to the list of
`File` entries decoded from files.xml.  (Opening or decoding files.xml can
fail, in which case the Go function returns an error before this loop runs
and no mapping is produced; the claims below concern the returned mapping.) -/
def buildFileMapping (files : List File) : FileMapping :=
  files.foldl buildStep (fun _ => none)

/-- An entry of files.xml with its filename sanitized, as the loop of
`buildFileMapping` rewrites it before the validity test. -/
def sanitizeEntry (file : File) : File :=
  { file with Filename := sanitizeFileName file.Filename }

/-- The validity test of `buildFileMapping` on an already-sanitized entry:
the entry is kept when the ID and ContentHash are non-empty and the
sanitized filename is not exactly ".". -/
def validEntry (file : File) : Bool :=
  !(file.ID == "" || file.ContentHash == "" || file.Filename == ".")

/-- Go `path.Join` on the components used by mfe.go: the non-empty components
joined by "/".  (`path.Join` additionally cleans the result; on the
separator-free, dot-segment-free components the program passes, cleaning is
the identity and is not modelled.) -/
def joinParts : List String → String
  | [] => ""
  | [p] => p
  | p :: ps => p ++ "/" ++ joinParts ps

/-- Join a list of path components, Go `path.Join` / `filepath.Join` style:
empty components are ignored. -/
def goPathJoin (parts : List String) : String :=
  joinParts (parts.filter (fun p => p != ""))

/-- Go `strings.HasPrefix(s, pre)`: whether the byte string `s` starts with
`pre`, modelled on the character list (the pattern "folder_" is ASCII, so
bytes and characters coincide). -/
def goStringStartsWith (s pre : String) : Bool :=
  pre.data.isPrefixOf s.data

/-- One activity bundle directory under `activities/`, as the Folder Resolver
sees it: the directory name, the decoded `folder>name` field of its
folder.xml (`none` when folder.xml is absent or undecodable), and the decoded
list of `fileref>file>id` values of its inforef.xml (`none` when inforef.xml
is absent or undecodable). -/
structure Bundle where
  name : String
  folderXML : Option String
  inforefIDs : Option (List String)
deriving DecidableEq, Repr

/-- The warning line `logDebug("Warning: File ID %s not found in
file_mapping\n", ...)` prints for a dangling file reference.  (In mfe.go the
line goes through `logDebug`, so it is shown only when the debug flag is set;
the older extract.go prints it unconditionally.) -/
def warnMissing (id : String) : String :=
  "Warning: File ID " ++ id ++ " not found in file_mapping"

/-- The body of the inner loop of `processActivitiesFolder` in mfe.go: when
the referenced id is present in the mapping, set its Folder field to the
(already sanitized) folder name; when it is absent, record the warning line
and change nothing. -/
def assignStep (folderName : String) (acc : FileMapping × List String)
    (id : String) : FileMapping × List String :=
  match acc.1 id with
  | some f =>
    (fun k => if k = id then some { f with Folder := folderName } else acc.1 k, acc.2)
  | none => (acc.1, acc.2 ++ [warnMissing id])

/-- The inner loop of `processActivitiesFolder` in mfe.go over the decoded
file references of inforef.xml. -/
def assignFolders (folderName : String) (refs : List String)
    (acc : FileMapping × List String) : FileMapping × List String :=
  refs.foldl (assignStep folderName) acc

/-- One iteration of the outer loop of `processActivitiesFolder` in mfe.go
over the entries of the activities directory: directories whose name does not
start with "folder_" are ignored; a bundle whose folder.xml or inforef.xml is
absent or undecodable is skipped with a warning (mfe.go prints a different
line for a parse error than for a missing file; only the not-found line is
modelled); otherwise the folder name is sanitized and assigned to every
referenced record. -/
def processBundle (acc : FileMapping × List String) (b : Bundle) :
    FileMapping × List String :=
  if goStringStartsWith b.name "folder_" then
    match b.folderXML with
    | none => (acc.1, acc.2 ++ ["Warning: folder.xml not found in " ++ goPathJoin ["activities", b.name]])
    | some rawName =>
      match b.inforefIDs with
      | none => (acc.1, acc.2 ++ ["Warning: inforef.xml not found in " ++ goPathJoin ["activities", b.name]])
      | some refs => assignFolders (sanitizeFileName rawName) refs acc
  else acc

/-- Go `processActivitiesFolder` from mfe.go.  `dirs` is the result of
`fs.ReadDir(source, activitiesFolder)`: `none` when reading the directory
fails, in which case the function returns an error; otherwise every listed
bundle is processed in order and the updated mapping is returned together
with the warning lines produced. -/
def processActivitiesFolder (dirs : Option (List Bundle)) (m : FileMapping) :
    Except String (FileMapping × List String) :=
  match dirs with
  | none => .error "error reading activities folder"
  | some bundles => .ok (bundles.foldl processBundle (m, []))

/-- The folder name and reference list a bundle effectively contributes:
`none` when the bundle is ignored or skipped by `processActivitiesFolder`. -/
def bundleEffective (b : Bundle) : Option (String × List String) :=
  if goStringStartsWith b.name "folder_" then
    match b.folderXML, b.inforefIDs with
    | some rawName, some refs => some (sanitizeFileName rawName, refs)
    | _, _ => none
  else none

/-- The referenced-id list a bundle effectively contributes. -/
def bundleRefs (b : Bundle) : List String :=
  match bundleEffective b with
  | none => []
  | some p => p.2

/-- Updating the Folder field of a record, as folder resolution does. -/
def folderUpd (folderName : String) (f : File) : File :=
  { f with Folder := folderName }

/-- The effect of one bundle on the mapping alone (the warnings already
accumulated do not influence the mapping). -/
def stepMap (m : FileMapping) (b : Bundle) : FileMapping :=
  (processBundle (m, []) b).1

/-- The fields of a record that folder resolution must not touch. -/
def fileKey (f : File) : String × String × String :=
  (f.ID, f.ContentHash, f.Filename)

/-- Go `path.Join("files", file.ContentHash[:2], file.ContentHash)` from
`copyFiles` in mfe.go: the content-addressed location of a payload inside the
store.  The Go slice `[:2]` takes the first two bytes; content hashes are
ASCII hex strings, where bytes and characters coincide. -/
def sourceFilePath (file : File) : String :=
  goPathJoin ["files", String.mk (file.ContentHash.data.take 2), file.ContentHash]

/-- The destination-path computation of `copyFiles` in mfe.go:
`filepath.Join(destinationFolder, file.Filename)` when the record has no
folder, `filepath.Join(destinationFolder, file.Folder, file.Filename)`
otherwise.  (On Unix `filepath.Join` agrees with `path.Join`.) -/
def destinationPath (destinationFolder : String) (file : File) : String :=
  if file.Folder == "" then goPathJoin [destinationFolder, file.Filename]
  else goPathJoin [destinationFolder, file.Folder, file.Filename]

/-- The state `copyFiles` acts on: the set of files existing at the
destination (modelled as the list of their paths), the count of files copied
by the current invocation, and the log of source-store paths the function has
attempted to open. -/
structure CopyState where
  destFiles : List String
  copied : Nat
  openedSources : List String
deriving DecidableEq, Repr

/-- One iteration of the loop of `copyFiles` in mfe.go over a record of the
mapping: skip when the ContentHash is shorter than 2 characters; otherwise
attempt to open the content-addressed source (recorded in `openedSources`)
and skip when it is unavailable; skip when the destination file already
exists; otherwise create the destination file and count it.  `src` tells
which store paths open successfully; directory creation and the I/O failures
of create/copy (all logged-and-skipped in Go) are not modelled — the runs
this development reasons about are the error-free ones. -/
def copyStep (src : String → Bool) (destinationFolder : String)
    (st : CopyState) (file : File) : CopyState :=
  if file.ContentHash.length < 2 then st
  else
    let st1 : CopyState := { st with openedSources := st.openedSources ++ [sourceFilePath file] }
    if src (sourceFilePath file) then
      if st1.destFiles.contains (destinationPath destinationFolder file) then st1
      else { st1 with
              destFiles := destinationPath destinationFolder file :: st1.destFiles,
              copied := st1.copied + 1 }
    else st1

/-- Go `copyFiles` from mfe.go: fold the per-record step over the records of
the mapping (`records` lists them in the — unspecified — Go map iteration
order), starting from the files already present at the destination and a
copied-count of zero. -/
def copyFiles (src : String → Bool) (destinationFolder : String)
    (records : List File) (initialFiles : List String) : CopyState :=
  records.foldl (copyStep src destinationFolder) ⟨initialFiles, 0, []⟩

/-- SPEC-SIDE DEFINITION.  Modelled from the spec (section 4.1): a sanitizer that deletes every
character in the set < > : " / \ | ? * and every C0 control character
(code points 0x00 to 0x1F), and keeps everything else.  Stated from the
spec's words, to be compared with `sanitizeFileName` from the source. -/
def specForbidden (c : Char) : Bool :=
  (['<', '>', ':', '"', '/', '\\', '|', '?', '*'].contains c) || decide (c.toNat ≤ 0x1F)

/-- Modelled from the spec (section 4.1): deletion, not substitution, of the
forbidden characters. -/
def sanitizeSpec (name : String) : String :=
  ⟨name.data.filter (fun c => !specForbidden c)⟩

/-- Filtering with the negation of a predicate ignores a dropped prefix. -/
theorem filter_not_dropWhile (p : Char → Bool) :
    ∀ l : List Char, (l.dropWhile p).filter (fun c => !p c) = l.filter (fun c => !p c) := by
  intro l
  induction l with
  | nil => rfl
  | cons c cs ih =>
    by_cases h : p c = true
    · simp [List.dropWhile_cons, List.filter_cons, h, ih]
    · simp [List.dropWhile_cons, List.filter_cons, h]

/-- Replacing every maximal run of forbidden characters by the empty string
is the same as deleting every forbidden character. -/
theorem replaceForbiddenRuns_eq_filter :
    ∀ l : List Char, replaceForbiddenRuns l = l.filter (fun c => !forbiddenChar c) := by
  intro l
  induction l using replaceForbiddenRuns.induct with
  | case1 => rw [replaceForbiddenRuns]; rfl
  | case2 c cs h ih =>
    rw [replaceForbiddenRuns, if_pos h, ih, filter_not_dropWhile, List.filter_cons]
    simp [h]
  | case3 c cs h ih =>
    rw [replaceForbiddenRuns, if_neg h, ih, List.filter_cons]
    simp at h
    simp [h]

/-- Evaluation form of `sanitizeFileName`: it keeps exactly the characters of
its argument that are not forbidden. -/
theorem sanitizeFileName_eq_filter (s : String) :
    sanitizeFileName s = ⟨s.data.filter (fun c => !forbiddenChar c)⟩ := by
  rw [sanitizeFileName, replaceForbiddenRuns_eq_filter]

/-- The character class of the source regular expression coincides with the
forbidden set enumerated by the spec. -/
theorem forbiddenChar_eq_spec (c : Char) : forbiddenChar c = specForbidden c := by
  rw [Bool.eq_iff_iff]
  simp [forbiddenChar, specForbidden]
  have h32 : c.toNat < 32 ↔ c.toNat ≤ 31 := by omega
  rw [h32]
  tauto

/-- C6: sanitizeFileName is idempotent — sanitize (sanitize s) = sanitize s
for every string — and it never introduces characters: its output is a
subsequence (Sublist) of its input, and every character outside the forbidden
set is kept with its exact multiplicity, so the output is obtained from the
input only by removing forbidden characters. -/
theorem sanitizeFileName_idempotent_and_sublist (s : String) :
    sanitizeFileName (sanitizeFileName s) = sanitizeFileName s ∧
    List.Sublist (sanitizeFileName s).data s.data ∧
    (∀ c : Char, forbiddenChar c = false →
      (sanitizeFileName s).data.count c = s.data.count c) := by
  refine ⟨?_, ?_, ?_⟩
  · simp [sanitizeFileName_eq_filter]
  · simp only [sanitizeFileName_eq_filter]
    exact List.filter_sublist s.data
  · intro c hc
    simp only [sanitizeFileName_eq_filter]
    exact List.count_filter (by simp [hc])

/-- C6 witness at a concrete input. -/
theorem sanitizeFileName_idempotent_and_sublist_witness :
    sanitizeFileName (sanitizeFileName "a<b") = sanitizeFileName "a<b" ∧
    (sanitizeFileName "a<b").data.count 'a' = "a<b".data.count 'a' :=
  ⟨(sanitizeFileName_idempotent_and_sublist "a<b").1,
   (sanitizeFileName_idempotent_and_sublist "a<b").2.2 'a' (by decide)⟩

/-- C7: sanitizeFileName is a pure total function that removes exactly the
characters < > : " / \ | ? * and the C0 control characters (0x00-0x1F) by
deletion: it agrees with the spec-side filter `sanitizeSpec`, which keeps
every other character in order and inserts no separator, so runs of
forbidden characters collapse to nothing. -/
theorem sanitizeFileName_matches_spec (s : String) :
    sanitizeFileName s = sanitizeSpec s := by
  rw [sanitizeFileName_eq_filter, sanitizeSpec]
  exact congrArg String.mk
    (List.filter_congr (fun c _ => by rw [forbiddenChar_eq_spec]))

/-- Lookup in the mapping built over an arbitrary starting map: the result at
key `k` is the last valid sanitized entry of the document whose ID is `k`,
and the starting map's answer when there is none. -/
theorem buildFold_lookup (files : List File) (m : FileMapping) (k : String) :
    (files.foldl buildStep m) k =
      (((files.map sanitizeEntry).reverse).find? (fun f => validEntry f && f.ID == k)).or (m k) := by
  induction files generalizing m with
  | nil => simp
  | cons f rest ih =>
    rw [List.foldl_cons, ih]
    simp only [List.map_cons, List.reverse_cons, List.find?_append]
    rw [Option.or_assoc]
    congr 1
    show buildStep m f k = _
    simp only [buildStep, insertFile, sanitizeEntry, validEntry, List.find?_cons, List.find?_nil]
    by_cases hg : (f.ID == "" || f.ContentHash == "" || sanitizeFileName f.Filename == ".") = true
    · simp [hg]
    · simp only [hg, if_neg, Bool.not_false]
      by_cases hk : k = f.ID
      · simp [hk, insertFile]
      · rw [beq_eq_false_iff_ne.mpr (Ne.symm hk)]
        simp [insertFile, hk]

/-- C2: buildFileMapping inserts exactly the decoded entries whose ID is
non-empty, whose ContentHash is non-empty and whose sanitized filename is not
".": the mapping at key `k` is the last such entry of the document with
`ID = k` (last-in-document wins; `find?` over the reversed document), and
`none` when the document has no such entry.  The function model of the Go map
makes the mapping hold exactly one record per distinct ID. -/
theorem buildFileMapping_lookup (files : List File) (k : String) :
    buildFileMapping files k =
      ((files.map sanitizeEntry).reverse).find? (fun f => validEntry f && f.ID == k) := by
  rw [buildFileMapping, buildFold_lookup]
  simp

/-- C1 (amended): every record in a mapping returned by buildFileMapping has
a non-empty ID, a non-empty ContentHash and a sanitized Filename that is not
the placeholder "."; the original claim's further requirement that the
Filename is non-empty does not hold (see the counterexample: the guard in
mfe.go only rejects the literal "."). -/
theorem buildFileMapping_invariant (files : List File) (k : String) (f : File)
    (h : buildFileMapping files k = some f) :
    f.ID ≠ "" ∧ f.ContentHash ≠ "" ∧ f.Filename ≠ "." := by
  rw [buildFileMapping, buildFold_lookup] at h
  simp only [Option.or_none] at h
  have hp := List.find?_some h
  simp only [validEntry, Bool.and_eq_true, Bool.not_eq_true', Bool.or_eq_false_iff,
    beq_eq_false_iff_ne] at hp
  tauto

/-- C1 witness: a concrete document entry that survives the guard, with the
invariant holding at it. -/
theorem buildFileMapping_invariant_witness :
    buildFileMapping [⟨"1", "ab", "a.txt", ""⟩] "1" = some ⟨"1", "ab", "a.txt", ""⟩ ∧
    (("1" : String) ≠ "" ∧ ("ab" : String) ≠ "" ∧ ("a.txt" : String) ≠ ".") := by
  have h : buildFileMapping [⟨"1", "ab", "a.txt", ""⟩] "1" = some ⟨"1", "ab", "a.txt", ""⟩ := by
    simp only [buildFileMapping, List.foldl_cons, List.foldl_nil, buildStep,
      sanitizeFileName_eq_filter, insertFile]
    decide
  exact ⟨h, buildFileMapping_invariant _ _ _ h⟩

/-- C1 counterexample: the entry with filename "<>" sanitizes to the empty
string, which is not ".", so it enters the mapping with an empty Filename —
refuting the claim that a record whose filename sanitizes to the empty
string never enters the mapping. -/
theorem buildFileMapping_empty_filename_cex :
    buildFileMapping [⟨"1", "ab", "<>", ""⟩] "1" = some ⟨"1", "ab", "", ""⟩ := by
  simp only [buildFileMapping, List.foldl_cons, List.foldl_nil, buildStep,
    sanitizeFileName_eq_filter, insertFile]
  decide

/-- The inner resolver loop, pointwise and on its warnings: every referenced
id present in the mapping gets the folder name written to its Folder field
(later duplicates rewrite the same value), every other key is untouched, and
one warning line is recorded per dangling reference occurrence. -/
theorem assignFolders_spec (fn : String) :
    ∀ (refs : List String) (m : FileMapping) (w : List String),
      (assignFolders fn refs (m, w)).1 =
        (fun k => if k ∈ refs then (m k).map (folderUpd fn) else m k) ∧
      (assignFolders fn refs (m, w)).2 =
        w ++ (refs.filter (fun id => (m id).isNone)).map warnMissing := by
  intro refs
  induction refs with
  | nil =>
    intro m w
    refine ⟨funext fun k => ?_, ?_⟩
    · simp [assignFolders]
    · simp [assignFolders]
  | cons id rest ih =>
    intro m w
    cases hc : m id with
    | some f =>
      have hstep : assignStep fn (m, w) id =
          ((fun k => if k = id then some (folderUpd fn f) else m k), w) := by
        simp [assignStep, hc, folderUpd]
      have hfold : assignFolders fn (id :: rest) (m, w) =
          assignFolders fn rest ((fun k => if k = id then some (folderUpd fn f) else m k), w) := by
        rw [assignFolders, List.foldl_cons, hstep]; rfl
      obtain ⟨ih1, ih2⟩ := ih (fun k => if k = id then some (folderUpd fn f) else m k) w
      rw [hfold]
      refine ⟨funext fun k => ?_, ?_⟩
      · rw [ih1]
        by_cases hk : k = id
        · subst hk
          by_cases hr : k ∈ rest <;> simp [hr, hc, folderUpd]
        · have : (k ∈ id :: rest) ↔ k ∈ rest := by simp [List.mem_cons, hk]
          by_cases hr : k ∈ rest <;> simp [hr, hk, this]
      · rw [ih2]
        have hfc : ∀ x ∈ rest,
            ((if x = id then some (folderUpd fn f) else m x).isNone) = ((m x).isNone) := by
          intro x _
          by_cases hx : x = id <;> simp [hx, hc]
        rw [List.filter_congr hfc]
        have : (m id).isNone = false := by simp [hc]
        simp [List.filter_cons, this]
    | none =>
      have hstep : assignStep fn (m, w) id = (m, w ++ [warnMissing id]) := by
        simp [assignStep, hc]
      have hfold : assignFolders fn (id :: rest) (m, w) =
          assignFolders fn rest (m, w ++ [warnMissing id]) := by
        rw [assignFolders, List.foldl_cons, hstep]; rfl
      obtain ⟨ih1, ih2⟩ := ih m (w ++ [warnMissing id])
      rw [hfold]
      refine ⟨funext fun k => ?_, ?_⟩
      · rw [ih1]
        by_cases hk : k = id
        · subst hk
          by_cases hr : k ∈ rest <;> simp [hr, hc]
        · have : (k ∈ id :: rest) ↔ k ∈ rest := by simp [List.mem_cons, hk]
          by_cases hr : k ∈ rest <;> simp [hr, this]
      · rw [ih2]
        have : (m id).isNone = true := by simp [hc]
        simp [List.filter_cons, this]

/-- The mapping component of one bundle's processing, expressed through the
bundle's effective contribution; in particular it does not depend on the
warnings accumulated so far. -/
theorem processBundle_fst (m : FileMapping) (w : List String) (b : Bundle) :
    (processBundle (m, w) b).1 =
      match bundleEffective b with
      | none => m
      | some p => fun k => if k ∈ p.2 then (m k).map (folderUpd p.1) else m k := by
  rw [processBundle, bundleEffective]
  by_cases hn : goStringStartsWith b.name "folder_" = true
  · cases hf : b.folderXML with
    | none => simp [hn]
    | some rawName =>
      cases hi : b.inforefIDs with
      | none => simp [hn]
      | some refs =>
        simp only [hn, if_pos, if_true]
        exact (assignFolders_spec (sanitizeFileName rawName) refs m w).1
  · simp [hn]

/-- The mapping component of a whole resolver run over the bundle list equals
the fold of the per-bundle mapping effect. -/
theorem foldl_processBundle_fst :
    ∀ (bundles : List Bundle) (m : FileMapping) (w : List String),
      (bundles.foldl processBundle (m, w)).1 = bundles.foldl stepMap m := by
  intro bundles
  induction bundles with
  | nil => intro m w; rfl
  | cons b rest ih =>
    intro m w
    rw [List.foldl_cons, List.foldl_cons]
    have hw : (processBundle (m, w) b).1 = stepMap m b := by
      rw [processBundle_fst, stepMap, processBundle_fst]
    calc (rest.foldl processBundle (processBundle (m, w) b)).1
        = rest.foldl stepMap (processBundle (m, w) b).1 :=
          ih (processBundle (m, w) b).1 (processBundle (m, w) b).2
      _ = rest.foldl stepMap (stepMap m b) := by rw [hw]

/-- `stepMap` through the bundle's effective folder name and reference
list. -/
theorem stepMap_eq (m : FileMapping) (b : Bundle) :
    stepMap m b =
      match bundleEffective b with
      | none => m
      | some p => fun k => if k ∈ p.2 then (m k).map (folderUpd p.1) else m k := by
  rw [stepMap, processBundle_fst]

/-- C4: during folder resolution of a bundle (one whose name carries the
"folder_" prefix and whose folder.xml and inforef.xml decode), every
referenced id present in the mapping gets its Folder field set to the
sanitized folder name of that bundle, and every referenced id absent from
the mapping yields the warning line and leaves the mapping otherwise
unchanged: no entry is added at the dangling id, no key outside the
reference list is modified, and no error is returned. -/
theorem processActivitiesFolder_bundle (b : Bundle) (m : FileMapping)
    (rawName : String) (refs : List String)
    (hname : goStringStartsWith b.name "folder_" = true)
    (hfolder : b.folderXML = some rawName)
    (hinforef : b.inforefIDs = some refs) :
    ∃ m' w, processActivitiesFolder (some [b]) m = .ok (m', w) ∧
      (∀ id ∈ refs, ∀ f, m id = some f →
        m' id = some { f with Folder := sanitizeFileName rawName }) ∧
      (∀ id ∈ refs, m id = none → m' id = none ∧ warnMissing id ∈ w) ∧
      (∀ k, k ∉ refs → m' k = m k) := by
  have hpb : processBundle (m, []) b = assignFolders (sanitizeFileName rawName) refs (m, []) := by
    rw [processBundle, hfolder, hinforef, if_pos hname]
  obtain ⟨h1, h2⟩ := assignFolders_spec (sanitizeFileName rawName) refs m []
  refine ⟨(assignFolders (sanitizeFileName rawName) refs (m, [])).1,
          (assignFolders (sanitizeFileName rawName) refs (m, [])).2, ?_, ?_, ?_, ?_⟩
  · rw [processActivitiesFolder, List.foldl_cons, List.foldl_nil, hpb]
  · intro id hid f hf
    rw [h1]
    simp [hid, hf, folderUpd]
  · intro id hid hf
    constructor
    · rw [h1]
      simp [hid, hf]
    · rw [h2]
      have : id ∈ refs.filter (fun id => (m id).isNone) := by
        rw [List.mem_filter]
        exact ⟨hid, by simp [hf]⟩
      simpa using List.mem_map_of_mem warnMissing this
  · intro k hk
    rw [h1]
    simp [hk]

/-- C4 witness: a two-reference bundle against a mapping holding only id
"1"; id "2" dangles. -/
theorem processActivitiesFolder_bundle_witness :
    goStringStartsWith "folder_5" "folder_" = true ∧
    (∃ m' w, processActivitiesFolder
        (some [⟨"folder_5", some "My:Folder", some ["1", "2"]⟩])
        (fun k => if k = "1" then some ⟨"1", "ab", "f.txt", ""⟩ else none) = .ok (m', w) ∧
      (∀ id ∈ ["1", "2"], ∀ f,
        (fun k => if k = "1" then some ⟨"1", "ab", "f.txt", ""⟩ else none : FileMapping) id = some f →
        m' id = some { f with Folder := sanitizeFileName "My:Folder" }) ∧
      (∀ id ∈ ["1", "2"],
        (fun k => if k = "1" then some ⟨"1", "ab", "f.txt", ""⟩ else none : FileMapping) id = none →
        m' id = none ∧ warnMissing id ∈ w) ∧
      (∀ k, k ∉ ["1", "2"] →
        m' k = (fun k => if k = "1" then some ⟨"1", "ab", "f.txt", ""⟩ else none : FileMapping) k)) :=
  ⟨by decide,
   processActivitiesFolder_bundle ⟨"folder_5", some "My:Folder", some ["1", "2"]⟩
     (fun k => if k = "1" then some ⟨"1", "ab", "f.txt", ""⟩ else none)
     "My:Folder" ["1", "2"] (by decide) rfl rfl⟩

/-- Folding the per-bundle mapping effect never changes the ID, ContentHash
or Filename of any entry, nor the presence of any key. -/
theorem foldl_stepMap_fileKey :
    ∀ (bundles : List Bundle) (m : FileMapping) (k : String),
      ((bundles.foldl stepMap m) k).map fileKey = (m k).map fileKey := by
  intro bundles
  induction bundles with
  | nil => intro m k; rfl
  | cons b rest ih =>
    intro m k
    rw [List.foldl_cons, ih]
    rw [stepMap_eq]
    cases hb : bundleEffective b with
    | none => rfl
    | some p =>
      by_cases hk : k ∈ p.2
      · cases hmk : m k <;> simp [hk, fileKey, folderUpd, hmk]
      · simp [hk]

/-- C10: processActivitiesFolder never adds or removes mapping entries and
mutates only the Folder field: for every key the image of the entry under
(ID, ContentHash, Filename) is the same before and after folder resolution,
which also forces the key set (the keys with a `some` entry) to be
identical. -/
theorem processActivitiesFolder_frame (bundles : List Bundle) (m : FileMapping)
    (r : FileMapping × List String)
    (h : processActivitiesFolder (some bundles) m = .ok r) (k : String) :
    (r.1 k).map fileKey = (m k).map fileKey := by
  have hr : r = bundles.foldl processBundle (m, []) := by
    rw [processActivitiesFolder] at h
    exact (Except.ok.inj h).symm
  rw [hr, foldl_processBundle_fst]
  exact foldl_stepMap_fileKey bundles m k

/-- C10 witness: a one-bundle resolver run against a one-entry mapping. -/
theorem processActivitiesFolder_frame_witness :
    ((([⟨"folder_5", some "My:Folder", some ["1"]⟩] : List Bundle).foldl processBundle
        ((fun k => if k = "1" then some ⟨"1", "ab", "f.txt", ""⟩ else none), [])).1 "1").map fileKey =
      ((fun k => if k = "1" then some ⟨"1", "ab", "f.txt", ""⟩ else none : FileMapping) "1").map fileKey :=
  processActivitiesFolder_frame [⟨"folder_5", some "My:Folder", some ["1"]⟩]
    (fun k => if k = "1" then some ⟨"1", "ab", "f.txt", ""⟩ else none) _ rfl "1"

/-- One-bundle steps on the mapping commute when the two bundles reference
disjoint id sets. -/
theorem stepMap_comm (a b : Bundle)
    (h : ∀ id, id ∈ bundleRefs a → id ∉ bundleRefs b) (m : FileMapping) :
    stepMap (stepMap m a) b = stepMap (stepMap m b) a := by
  cases ha : bundleEffective a with
  | none =>
    have ha' : ∀ m' : FileMapping, stepMap m' a = m' := by
      intro m'; rw [stepMap_eq, ha]
    rw [ha' m, ha' (stepMap m b)]
  | some pa =>
    cases hb : bundleEffective b with
    | none =>
      have hb' : ∀ m' : FileMapping, stepMap m' b = m' := by
        intro m'; rw [stepMap_eq, hb]
      rw [hb' m, hb' (stepMap m a)]
    | some pb =>
      have hra : bundleRefs a = pa.2 := by rw [bundleRefs, ha]
      have hrb : bundleRefs b = pb.2 := by rw [bundleRefs, hb]
      have hd : ∀ id, id ∈ pa.2 → id ∉ pb.2 := by
        intro id hid
        have := h id (by rw [hra]; exact hid)
        rwa [hrb] at this
      funext k
      rw [stepMap_eq (stepMap m a) b, stepMap_eq m a, stepMap_eq (stepMap m b) a, stepMap_eq m b,
        ha, hb]
      by_cases hka : k ∈ pa.2
      · have hkb : k ∉ pb.2 := hd k hka
        simp [hka, hkb]
      · by_cases hkb : k ∈ pb.2
        · simp [hka, hkb]
        · simp [hka, hkb]

/-- Folding the per-bundle mapping effect over pairwise-disjoint bundles is
invariant under permutation of the bundle list. -/
theorem foldl_stepMap_perm :
    ∀ {l1 l2 : List Bundle}, l1.Perm l2 →
      l1.Pairwise (fun a b => ∀ id, id ∈ bundleRefs a → id ∉ bundleRefs b) →
      ∀ m : FileMapping, l1.foldl stepMap m = l2.foldl stepMap m := by
  intro l1 l2 hperm
  induction hperm with
  | nil => intro _ m; rfl
  | cons x p ih =>
    intro hpw m
    rw [List.foldl_cons, List.foldl_cons]
    exact ih (List.pairwise_cons.mp hpw).2 (stepMap m x)
  | swap x y l =>
    intro hpw m
    rw [List.foldl_cons, List.foldl_cons, List.foldl_cons, List.foldl_cons,
      stepMap_comm y x ((List.pairwise_cons.mp hpw).1 x (by simp)) m]
  | trans p1 p2 ih1 ih2 =>
    intro hpw m
    rw [ih1 hpw m]
    refine ih2 ?_ m
    exact (p1.pairwise_iff (fun hxy id h1 h2 => hxy id h2 h1)).mp hpw

/-- C8: folder resolution is commutative across bundles whose referenced-id
sets are pairwise disjoint: for any two processing orders of the bundle list
(any permutation), processActivitiesFolder produces the same final
mapping. -/
theorem processActivitiesFolder_comm (l1 l2 : List Bundle) (m : FileMapping)
    (r1 r2 : FileMapping × List String)
    (hperm : l1.Perm l2)
    (hdisj : l1.Pairwise (fun a b => ∀ id, id ∈ bundleRefs a → id ∉ bundleRefs b))
    (h1 : processActivitiesFolder (some l1) m = .ok r1)
    (h2 : processActivitiesFolder (some l2) m = .ok r2) :
    r1.1 = r2.1 := by
  have hr1 : r1 = l1.foldl processBundle (m, []) := by
    rw [processActivitiesFolder] at h1
    exact (Except.ok.inj h1).symm
  have hr2 : r2 = l2.foldl processBundle (m, []) := by
    rw [processActivitiesFolder] at h2
    exact (Except.ok.inj h2).symm
  rw [hr1, hr2, foldl_processBundle_fst, foldl_processBundle_fst]
  exact foldl_stepMap_perm hperm hdisj m

/-- C8 witness: two folder bundles with disjoint reference sets, processed in
the two possible orders. -/
theorem processActivitiesFolder_comm_witness :
    (([⟨"folder_1", some "A", some ["1"]⟩, ⟨"folder_2", some "B", some ["2"]⟩] : List Bundle).foldl
        processBundle ((fun _ => none), [])).1 =
    (([⟨"folder_2", some "B", some ["2"]⟩, ⟨"folder_1", some "A", some ["1"]⟩] : List Bundle).foldl
        processBundle ((fun _ => none), [])).1 := by
  have e1 : bundleRefs ⟨"folder_1", some "A", some ["1"]⟩ = ["1"] := by
    have h : bundleEffective ⟨"folder_1", some "A", some ["1"]⟩ = some (sanitizeFileName "A", ["1"]) := by
      rw [bundleEffective, if_pos (by decide)]
    rw [bundleRefs, h]
  have e2 : bundleRefs ⟨"folder_2", some "B", some ["2"]⟩ = ["2"] := by
    have h : bundleEffective ⟨"folder_2", some "B", some ["2"]⟩ = some (sanitizeFileName "B", ["2"]) := by
      rw [bundleEffective, if_pos (by decide)]
    rw [bundleRefs, h]
  refine processActivitiesFolder_comm _ _ (fun _ => none) _ _ (List.Perm.swap _ _ _) ?_ rfl rfl
  refine List.Pairwise.cons ?_ (List.Pairwise.cons (by simp) List.Pairwise.nil)
  intro b' hb' id hid
  simp only [List.mem_singleton] at hb'
  subst hb'
  rw [e1] at hid
  rw [e2]
  simp only [List.mem_singleton] at hid
  subst hid
  decide

/-- One copy step either leaves the destination file set and the count
unchanged, or records the destination path as a new file and counts it. -/
theorem copyStep_core (src : String → Bool) (d : String) (st : CopyState) (f : File) :
    ((copyStep src d st f).destFiles = st.destFiles ∧ (copyStep src d st f).copied = st.copied) ∨
    ((copyStep src d st f).destFiles = destinationPath d f :: st.destFiles ∧
      (copyStep src d st f).copied = st.copied + 1) := by
  by_cases h1 : f.ContentHash.length < 2
  · left
    simp [copyStep, h1]
  · by_cases h2 : src (sourceFilePath f) = true
    · by_cases h3 : destinationPath d f ∈ st.destFiles
      · left
        simp [copyStep, h1, h2, h3]
      · right
        simp [copyStep, h1, h2, h3]
    · left
      simp [copyStep, h1, h2]

/-- A file present at the destination stays present through a copy run. -/
theorem copyFold_mem (src : String → Bool) (d : String) :
    ∀ (l : List File) (st : CopyState) (p : String), p ∈ st.destFiles →
      p ∈ (l.foldl (copyStep src d) st).destFiles := by
  intro l
  induction l with
  | nil => intro st p hp; exact hp
  | cons f rest ih =>
    intro st p hp
    rw [List.foldl_cons]
    refine ih (copyStep src d st f) p ?_
    rcases copyStep_core src d st f with ⟨h, -⟩ | ⟨h, -⟩
    · rw [h]; exact hp
    · rw [h]; exact List.mem_cons_of_mem _ hp

/-- After one copy step on an eligible record (hash of length at least 2,
payload available in the store), the destination path exists. -/
theorem copyStep_covers (src : String → Bool) (d : String) (st : CopyState) (f : File)
    (h1 : ¬f.ContentHash.length < 2) (h2 : src (sourceFilePath f) = true) :
    destinationPath d f ∈ (copyStep src d st f).destFiles := by
  by_cases h3 : destinationPath d f ∈ st.destFiles
  · simp [copyStep, h1, h2, h3]
  · simp [copyStep, h1, h2, h3]

/-- After a copy run, every eligible record of the list has its destination
path present. -/
theorem copyFold_covers (src : String → Bool) (d : String) :
    ∀ (l : List File) (st : CopyState) (f : File), f ∈ l →
      ¬f.ContentHash.length < 2 → src (sourceFilePath f) = true →
      destinationPath d f ∈ (l.foldl (copyStep src d) st).destFiles := by
  intro l
  induction l with
  | nil => intro st f hf; exact absurd hf (List.not_mem_nil f)
  | cons g rest ih =>
    intro st f hf h1 h2
    rw [List.foldl_cons]
    rcases List.mem_cons.mp hf with hfg | hfr
    · subst hfg
      exact copyFold_mem src d rest (copyStep src d st f) _ (copyStep_covers src d st f h1 h2)
    · exact ih (copyStep src d st g) f hfr h1 h2

/-- A copy step on a record whose destination already exists (or that is not
eligible) changes neither the destination file set nor the count. -/
theorem copyStep_fixed (src : String → Bool) (d : String) (st : CopyState) (f : File)
    (h : ¬f.ContentHash.length < 2 → src (sourceFilePath f) = true →
      destinationPath d f ∈ st.destFiles) :
    (copyStep src d st f).destFiles = st.destFiles ∧
    (copyStep src d st f).copied = st.copied := by
  by_cases h1 : f.ContentHash.length < 2
  · simp [copyStep, h1]
  · by_cases h2 : src (sourceFilePath f) = true
    · have h3 : destinationPath d f ∈ st.destFiles := h h1 h2
      simp [copyStep, h1, h2, h3]
    · simp [copyStep, h1, h2]

/-- A copy run over records whose eligible members are all already present at
the destination neither writes a file nor counts a copy. -/
theorem copyFold_fixed (src : String → Bool) (d : String) :
    ∀ (l : List File) (st : CopyState),
      (∀ f ∈ l, ¬f.ContentHash.length < 2 → src (sourceFilePath f) = true →
        destinationPath d f ∈ st.destFiles) →
      (l.foldl (copyStep src d) st).destFiles = st.destFiles ∧
      (l.foldl (copyStep src d) st).copied = st.copied := by
  intro l
  induction l with
  | nil => intro st _; exact ⟨rfl, rfl⟩
  | cons f rest ih =>
    intro st hst
    rw [List.foldl_cons]
    obtain ⟨hd1, hd2⟩ := copyStep_fixed src d st f (hst f (List.mem_cons_self f rest))
    have hrest : ∀ g ∈ rest, ¬g.ContentHash.length < 2 → src (sourceFilePath g) = true →
        destinationPath d g ∈ (copyStep src d st f).destFiles := by
      intro g hg hg1 hg2
      rw [hd1]
      exact hst g (List.mem_cons_of_mem f hg) hg1 hg2
    obtain ⟨hr1, hr2⟩ := ih (copyStep src d st f) hrest
    exact ⟨by rw [hr1, hd1], by rw [hr2, hd2]⟩

/-- Every copy counted during a run adds exactly one file to the destination:
the growth of the destination file set equals the growth of the count. -/
theorem copyFold_length (src : String → Bool) (d : String) :
    ∀ (l : List File) (st : CopyState),
      (l.foldl (copyStep src d) st).destFiles.length + st.copied =
        st.destFiles.length + (l.foldl (copyStep src d) st).copied := by
  intro l
  induction l with
  | nil => intro st; rw [List.foldl_nil]
  | cons f rest ih =>
    intro st
    rw [List.foldl_cons]
    have hih := ih (copyStep src d st f)
    rcases copyStep_core src d st f with ⟨h1, h2⟩ | ⟨h1, h2⟩
    · rw [h1, h2] at hih
      omega
    · rw [h1, h2, List.length_cons] at hih
      omega

/-- C3: materialization is idempotent.  Running copyFiles a second time
against the destination file set produced by the first run leaves the file
set unchanged and returns a copied-count of zero (every record either fails
its guards again or is skipped as already existing, never overwritten), and
the first run's copied-count counts exactly the files newly added to the
destination. -/
theorem copyFiles_idempotent (src : String → Bool) (d : String)
    (records : List File) (initialFiles : List String) :
    (copyFiles src d records (copyFiles src d records initialFiles).destFiles).destFiles =
      (copyFiles src d records initialFiles).destFiles ∧
    (copyFiles src d records (copyFiles src d records initialFiles).destFiles).copied = 0 ∧
    (copyFiles src d records initialFiles).destFiles.length =
      initialFiles.length + (copyFiles src d records initialFiles).copied := by
  have hcov : ∀ f ∈ records, ¬f.ContentHash.length < 2 → src (sourceFilePath f) = true →
      destinationPath d f ∈ (copyFiles src d records initialFiles).destFiles := by
    intro f hf h1 h2
    rw [copyFiles]
    exact copyFold_covers src d records ⟨initialFiles, 0, []⟩ f hf h1 h2
  obtain ⟨hfix1, hfix2⟩ :=
    copyFold_fixed src d records ⟨(copyFiles src d records initialFiles).destFiles, 0, []⟩ hcov
  have hlen := copyFold_length src d records (⟨initialFiles, 0, []⟩ : CopyState)
  refine ⟨?_, ?_, ?_⟩
  · rw [copyFiles]
    exact hfix1
  · rw [copyFiles]
    exact hfix2
  · rw [copyFiles]
    simpa using hlen

/-- C5: a record whose ContentHash is shorter than 2 characters is skipped
with no modelled side effect: the copy step returns its state unchanged (no
source open recorded, no file written, no count), and a whole run over a list
containing such a record equals the run over the list without it — so the
two-character hash-prefix slice is only ever taken for hashes of length at
least 2. -/
theorem copyFiles_skips_short_hash (src : String → Bool) (d : String) (st : CopyState)
    (f : File) (l1 l2 : List File) (initialFiles : List String)
    (h : f.ContentHash.length < 2) :
    copyStep src d st f = st ∧
    copyFiles src d (l1 ++ f :: l2) initialFiles = copyFiles src d (l1 ++ l2) initialFiles := by
  have hstep : ∀ st' : CopyState, copyStep src d st' f = st' := by
    intro st'
    simp [copyStep, h]
  refine ⟨hstep st, ?_⟩
  rw [copyFiles, copyFiles, List.foldl_append, List.foldl_append, List.foldl_cons, hstep]

/-- C5 witness: a record with the one-character hash "x". -/
theorem copyFiles_skips_short_hash_witness :
    ("x" : String).length < 2 ∧
    (copyStep (fun _ => true) "out" ⟨[], 0, []⟩ ⟨"1", "x", "a.txt", ""⟩ = ⟨[], 0, []⟩ ∧
      copyFiles (fun _ => true) "out" ([] ++ ⟨"1", "x", "a.txt", ""⟩ :: []) [] =
        copyFiles (fun _ => true) "out" ([] ++ []) []) :=
  ⟨by decide,
   copyFiles_skips_short_hash (fun _ => true) "out" ⟨[], 0, []⟩ ⟨"1", "x", "a.txt", ""⟩
     [] [] [] (by decide)⟩

/-- C9: for a record that can be materialized (hash of length at least 2; a
non-empty destination root and filename, the only components on which Go's
path joining is plain interspersion), the source path inside the store is
files/<first-2-chars-of-hash>/<full-hash>, and the destination path is
destinationRoot/filename when the folder field is empty and
destinationRoot/folder/filename otherwise. -/
theorem copyFiles_paths (f : File) (d : String)
    (hlen : 2 ≤ f.ContentHash.length) (hd : d ≠ "") (hfn : f.Filename ≠ "") :
    sourceFilePath f =
      "files" ++ "/" ++ String.mk (f.ContentHash.data.take 2) ++ "/" ++ f.ContentHash ∧
    (f.Folder = "" → destinationPath d f = d ++ "/" ++ f.Filename) ∧
    (f.Folder ≠ "" → destinationPath d f = d ++ "/" ++ f.Folder ++ "/" ++ f.Filename) := by
  have hdata : f.ContentHash.data ≠ [] := by
    intro hnil
    have : f.ContentHash.length = 0 := by
      rw [String.length]
      simp [hnil]
    omega
  have hhash : f.ContentHash ≠ "" := by
    intro hemp
    exact hdata (congrArg String.data hemp)
  have htake : String.mk (f.ContentHash.data.take 2) ≠ "" := by
    intro hemp
    have : f.ContentHash.data.take 2 = [] := congrArg String.data hemp
    rcases List.take_eq_nil_iff.mp this with h2 | h2
    · omega
    · exact hdata h2
  refine ⟨?_, ?_, ?_⟩
  · rw [sourceFilePath, goPathJoin]
    have hfilter : (["files", String.mk (f.ContentHash.data.take 2), f.ContentHash].filter
        (fun p => p != "")) = ["files", String.mk (f.ContentHash.data.take 2), f.ContentHash] := by
      simp [htake, hhash]
    rw [hfilter]
    simp [joinParts, String.append_assoc]
  · intro hfold
    rw [destinationPath, if_pos (by simp [hfold]), goPathJoin]
    have hfilter : ([d, f.Filename].filter (fun p => p != "")) = [d, f.Filename] := by
      simp [hd, hfn]
    rw [hfilter]
    simp [joinParts]
  · intro hfold
    rw [destinationPath, if_neg (by simp [hfold]), goPathJoin]
    have hfilter : ([d, f.Folder, f.Filename].filter (fun p => p != "")) = [d, f.Folder, f.Filename] := by
      simp [hd, hfold, hfn]
    rw [hfilter]
    simp [joinParts, String.append_assoc]

/-- C9 witness: a record with a four-character hash, a folder and a
filename, against destination root "out". -/
theorem copyFiles_paths_witness :
    2 ≤ ("abcd" : String).length ∧
    (sourceFilePath ⟨"1", "abcd", "f.txt", "Dir"⟩ =
      "files" ++ "/" ++ String.mk (("abcd" : String).data.take 2) ++ "/" ++ "abcd" ∧
    ((("Dir" : String) = "" →
      destinationPath "out" ⟨"1", "abcd", "f.txt", "Dir"⟩ = "out" ++ "/" ++ "f.txt") ∧
     (("Dir" : String) ≠ "" →
      destinationPath "out" ⟨"1", "abcd", "f.txt", "Dir"⟩ =
        "out" ++ "/" ++ "Dir" ++ "/" ++ "f.txt"))) :=
  ⟨by decide,
   copyFiles_paths ⟨"1", "abcd", "f.txt", "Dir"⟩ "out" (by decide) (by decide) (by decide)⟩

end Mfe
